import Mathlib

/-!
Verification development for the BeatDriver audio-analysis pipeline.

The program under study is the function audio_to_csv of src/audio_analysis.py
(the script that the Blender add-on in src/operators.py actually runs as a
subprocess).  The pipeline loads an audio file into a mono sample buffer,
derives an analysis grid (hop length and total frame count), computes a
magnitude spectrogram, per-band energy tracks, an RMS loudness track and an
onset pulse track, normalizes and median-filters them, and writes the first
total_frames rows of the stacked data as a CSV table.

Embedding conventions:
* Sample values and all feature values are embedded as rationals; the Python
  code computes with floating point, and none of the properties studied here
  depend on float rounding.
* Calls into the external library librosa (load, stft, fft_frequencies,
  feature.rms, onset.onset_strength, the peak picker inside
  onset.onset_detect) are external collaborators, not code of this
  repository.  Their outputs (the magnitude spectrogram, the raw RMS track,
  the onset envelope, the picked peak indices) are inputs of the embedded
  engine; the documented facts about them that the claims need (frame count
  of a centered short-time transform, bin-frequency formula, the all-zero
  guard inside onset_detect) are embedded as definitions with a comment
  saying which library behavior they model.
* Everything the repository itself computes (the grid, band selection, the
  empty-band guard, weighting, the zero-peak normalization guards, the
  median filter, pulse assembly, row stacking, truncation, and the error
  handler) is translated directly from src/audio_analysis.py.
-/

namespace BeatDriver

/-- A per-frame feature track: one rational value per analysis frame. -/
abbrev Track := List ℚ

/-- A 2D array, stored as a list of rows. -/
abbrev Matrix2 := List (List ℚ)

/-- Result of librosa.load (audio_analysis.py line 83): the decoded mono
sample buffer together with its native sample rate. -/
structure LoadedAudio where
  samples : Track
  sr : ℕ
deriving DecidableEq

/-- Outputs of the external librosa calls made by audio_to_csv at the
computed hop length: the magnitude spectrogram S (line 94, rows indexed by
frequency bin), the raw RMS track (line 129) and the onset-strength
envelope (line 135).  These are results of the external numerical library,
so the embedded engine takes them as inputs. -/
structure LibOut where
  S : Matrix2
  rms : Track
  env : Track
deriving DecidableEq

/-- FFT window size, fixed at 2048 samples (audio_analysis.py line 94). -/
def n_fft : ℕ := 2048

/-- Analysis hop length, from audio_analysis.py line 88:
hop_length = int(sr / fps).  Python int() truncates toward zero; for
positive operands this is floor, i.e. Nat division. -/
def hop_length (sr fps : ℕ) : ℕ := sr / fps

/-- Target number of output frames, from audio_analysis.py lines 86 and 87:
duration = len(y) / sr and total_frames = int(duration * fps), i.e.
floor of (n * fps) / sr for a signal of n samples. -/
def total_frames (n sr fps : ℕ) : ℕ := n * fps / sr

/-- Number of frames produced by the centered short-time transform.  Models
the documented librosa behavior: with center padding, stft, feature.rms and
onset_strength all yield 1 + floor(n / hop) frames on an n-sample signal. -/
def numFrames (n hop : ℕ) : ℕ := 1 + n / hop

/-- EQ bias weights, from audio_analysis.py line 91:
band_weights = np.array([1.2, 1.1, 1.0, 0.9, 0.8, 0.7, 0.5, 0.3]).
Note the array has eight entries while only seven bands exist. -/
def band_weights : List ℚ :=
  [12/10, 11/10, 1, 9/10, 8/10, 7/10, 5/10, 3/10]

/-- The seven frequency bands in Hz, from audio_analysis.py lines 97 to 105:
sub_bass, bass, low_mid, mid, high_mid, presence, brilliance. -/
def band_ranges : List (ℕ × ℕ) :=
  [(20, 60), (60, 120), (120, 250), (250, 2000), (2000, 4000),
   (4000, 6000), (6000, 12000)]

/-- Center frequency of FFT bin k, modelling librosa.fft_frequencies
(audio_analysis.py line 95): bin k maps to k * sr / n_fft Hz. -/
def fftFreq (sr k : ℕ) : ℚ := (k * sr : ℚ) / (n_fft : ℚ)

/-- Indices of the FFT bins whose center frequency lies in the half-open
band [lo, hi), from audio_analysis.py line 109:
idx = np.where((freqs >= band[0]) & (freqs < band[1]))[0].
The spectrogram has n_fft / 2 + 1 = 1025 bins. -/
def bandBins (sr lo hi : ℕ) : List ℕ :=
  (List.range (n_fft / 2 + 1)).filter
    (fun k => decide ((lo : ℚ) ≤ fftFreq sr k ∧ fftFreq sr k < (hi : ℚ)))

/-- Entry of the spectrogram at bin k and frame t (0 outside the array). -/
def entry (S : Matrix2) (k t : ℕ) : ℚ := (S.getD k []).getD t 0

/-- Number of columns of the spectrogram, i.e. S.shape[1]. -/
def sCols (S : Matrix2) : ℕ := (S.headD []).length

/-- Per-frame energy of one band, from audio_analysis.py lines 110 to 115:
the mean of the selected spectrogram rows when the band is nonempty, and a
zero track of length S.shape[1] when the band selected no bins. -/
def bandEnergy (S : Matrix2) (idx : List ℕ) : Track :=
  if idx.isEmpty then List.replicate (sCols S) 0
  else (List.range (sCols S)).map
    (fun t => (idx.map (fun k => entry S k t)).sum / (idx.length : ℚ))

/-- The seven raw band-energy tracks, from the loop at
audio_analysis.py lines 107 to 115. -/
def rawBands (sr : ℕ) (S : Matrix2) : Matrix2 :=
  band_ranges.map (fun b => bandEnergy S (bandBins sr b.1 b.2))

/-- Perceptual weighting, from audio_analysis.py line 119:
band_data *= band_weights[:band_data.shape[0], np.newaxis].
Each band track is scaled by the weight of the same index; only the first
band_data.shape[0] weights are consulted. -/
def weightedBands (bands : Matrix2) : Matrix2 :=
  List.zipWith (fun w tr => tr.map (fun x => w * x))
    (band_weights.take bands.length) bands

/-- Maximum of a track, modelling np.max on a nonempty 1D array. -/
def npMax : Track → ℚ
  | [] => 0
  | x :: xs => xs.foldl max x

/-- Peak normalization of one band track, from audio_analysis.py
lines 122 to 124: the per-row maximum is taken, zero maxima are replaced by
one, and the row is divided by the resulting value. -/
def normalizeTrack (tr : Track) : Track :=
  let m := npMax tr
  let m2 := if m = 0 then 1 else m
  tr.map (fun x => x / m2)

/-- Normalization applied to every band row (axis=1 maximum per row). -/
def normBands (bands : Matrix2) : Matrix2 := bands.map normalizeTrack

/-- Median of three rationals. -/
def median3 (a b c : ℚ) : ℚ := max (min a b) (min (max a b) c)

/-- Length-3 median filter with zero padding at both ends, modelling
scipy.signal.medfilt with kernel size 3 along the time axis
(audio_analysis.py lines 126 and 132). -/
def medfilt3 (tr : Track) : Track :=
  (List.range tr.length).map (fun i =>
    median3 (if i = 0 then 0 else tr.getD (i - 1) 0)
      (tr.getD i 0) (tr.getD (i + 1) 0))

/-- Median smoothing applied to every band row (kernel (1, 3)). -/
def smoothBands (bands : Matrix2) : Matrix2 := bands.map medfilt3

/-- The full band stage of the engine, in source order
(audio_analysis.py lines 107 to 126): band extraction, EQ weighting,
guarded peak normalization, median smoothing. -/
def bandStage (sr : ℕ) (S : Matrix2) : Matrix2 :=
  smoothBands (normBands (weightedBands (rawBands sr S)))

/-- Loudness normalization, from audio_analysis.py lines 130 and 131:
if np.max(rms) > 0: rms /= np.max(rms).  The division is skipped when the
peak is not positive. -/
def normalizeRms (rms : Track) : Track :=
  if 0 < npMax rms then rms.map (fun x => x / npMax rms) else rms

/-- The loudness stage: guarded normalization then length-3 median filter
(audio_analysis.py lines 129 to 132). -/
def rmsStage (rms : Track) : Track := medfilt3 (normalizeRms rms)

/-- Onset detection, modelling librosa.onset.onset_detect
(audio_analysis.py line 136): the library returns an empty index array
when the onset envelope has no nonzero entry, and otherwise applies its
peak picker, which is an external collaborator embedded as the parameter
pick. -/
def onsetDetect (pick : Track → List ℕ) (env : Track) : List ℕ :=
  if env.any (fun x => decide (x ≠ 0)) then pick env else []

/-- Pulse track, from audio_analysis.py lines 137 and 138:
pulse = np.zeros_like(rms); pulse[onsets] = 1. -/
def pulseTrack (L : ℕ) (onsets : List ℕ) : Track :=
  (List.range L).map (fun i => if i ∈ onsets then (1 : ℚ) else 0)

/-- Row stacking, from audio_analysis.py line 141:
all_data = np.vstack([rms, band_data, pulse]).T.  Row t is the loudness
value, then the seven band values, then the pulse value at frame t. -/
def all_data (loud : Track) (bands : Matrix2) (pulse : Track) : Matrix2 :=
  (List.range loud.length).map (fun t =>
    loud.getD t 0 :: (bands.map (fun b => b.getD t 0) ++ [pulse.getD t 0]))

/-- The fixed CSV header, audio_analysis.py lines 143 to 146. -/
def headers : List String :=
  ["loudness", "sub_bass", "bass", "low_mid", "mid",
   "high_mid", "presence", "brilliance", "pulse"]

/-- The serializer body, audio_analysis.py line 165:
writer.writerows(all_data[:total_frames]).  A Python slice keeps at most
total rows and silently keeps fewer when the data is shorter. -/
def writeStep (rows : Matrix2) (total : ℕ) : Matrix2 := rows.take total

/-- The written CSV artifact: the header row and the data rows. -/
structure CsvOut where
  header : List String
  rows : Matrix2
deriving DecidableEq

/-- The analysis engine on a successfully loaded buffer and a positive
frame rate: the straight-line body of audio_to_csv
(audio_analysis.py lines 86 to 165) after the librosa calls, whose outputs
are the lib argument. -/
def runPipeline (a : LoadedAudio) (lib : LibOut) (pick : Track → List ℕ)
    (fps : ℕ) : CsvOut :=
  let total := total_frames a.samples.length a.sr fps
  let bands := bandStage a.sr lib.S
  let loud := rmsStage lib.rms
  let pulse := pulseTrack lib.rms.length (onsetDetect pick lib.env)
  ⟨headers, writeStep (all_data loud bands pulse) total⟩

/-- The exceptions that the body of audio_to_csv can raise from the grid
and transform steps: ZeroDivisionError from int(sr / fps) at fps = 0
(line 88), and the librosa ParameterError raised by stft when the computed
hop length is smaller than one (line 94).  The code defines no ConfigError
and no ConsistencyError. -/
inductive AnalysisErr where
  | zeroDivision
  | invalidHop
deriving DecidableEq

/-- The body of audio_to_csv after a successful load, with the Python
exception behavior made explicit.  fps is an integer exactly as received
from the caller; int(sr / fps) is truncating division (Int.tdiv), and
stft rejects a hop length smaller than one. -/
def analyze (a : LoadedAudio) (lib : LibOut) (pick : Track → List ℕ)
    (fps : ℤ) : Except AnalysisErr CsvOut :=
  if fps = 0 then .error .zeroDivision
  else if Int.tdiv (a.sr : ℤ) fps < 1 then .error .invalidHop
  else .ok (runPipeline a lib pick fps.toNat)

/-- Top level of audio_to_csv (audio_analysis.py lines 81 to 180): the
load step runs first (line 83); any exception from the load or from the
body is caught by the except clause and turned into a None return.  A load
failure is the none input. -/
def audio_to_csv (load : Option LoadedAudio) (lib : LibOut)
    (pick : Track → List ℕ) (fps : ℤ) : Option CsvOut :=
  match load with
  | none => none
  | some a => (analyze a lib pick fps).toOption

/-- Lower-cases the characters of a string, modelling str.lower() on the
ASCII error messages involved (audio_analysis.py line 171). -/
def lowerChars (s : String) : List Char := s.data.map Char.toLower

/-- Whether needle occurs at the start of hay. -/
def isPrefixChars : List Char → List Char → Bool
  | [], _ => true
  | _ :: _, [] => false
  | a :: as, b :: bs => a == b && isPrefixChars as bs

/-- Whether needle occurs contiguously anywhere in hay, modelling the
Python substring test (needle in hay). -/
def containsSub (needle : List Char) : List Char → Bool
  | [] => isPrefixChars needle []
  | b :: bs => isPrefixChars needle (b :: bs) || containsSub needle bs

/-- The test of audio_analysis.py line 172:
"ffmpeg" in error_msg or "audioread" in error_msg, where error_msg is the
lower-cased exception message. -/
def mentionsFfmpeg (msg : String) : Bool :=
  containsSub "ffmpeg".data (lowerChars msg) ||
    containsSub "audioread".data (lowerChars msg)

/-- The except clause of audio_to_csv (audio_analysis.py lines 169 to 180)
acting on the FFmpeg cache directory: when the message mentions ffmpeg or
audioread the cache directory is removed (shutil.rmtree, line 177) and
None is returned; otherwise the cache is untouched and None is returned.
The boolean is whether the cache directory exists. -/
def errorCleanup (msg : String) (cacheExists : Bool) :
    Bool × Option CsvOut :=
  if mentionsFfmpeg msg then (false, none) else (cacheExists, none)

/-- Bin selection restated over the naturals: bin k is selected for the
band [lo, hi) exactly when lo * n_fft is at most k * sr and k * sr is
below hi * n_fft.  This lets concrete instances evaluate without rational
arithmetic. -/
theorem bandBins_eq_natFilter (sr lo hi : ℕ) :
    bandBins sr lo hi = (List.range (n_fft / 2 + 1)).filter
      (fun k => decide (lo * n_fft ≤ k * sr ∧ k * sr < hi * n_fft)) := by
  unfold bandBins
  apply List.filter_congr
  intro k _
  apply decide_eq_decide.mpr
  unfold fftFreq
  have h2048 : (0 : ℚ) < (n_fft : ℚ) := by norm_num [n_fft]
  rw [le_div_iff₀ h2048, div_lt_iff₀ h2048]
  constructor
  · rintro ⟨h1, h2⟩
    constructor
    · exact_mod_cast h1
    · exact_mod_cast h2
  · rintro ⟨h1, h2⟩
    constructor
    · exact_mod_cast h1
    · exact_mod_cast h2

/-! ### Helper lemmas about the feature-track operations -/

/-- Every element of a list bounds the running foldl maximum from below. -/
theorem le_foldl_max (l : List ℚ) (a : ℚ) :
    a ≤ l.foldl max a ∧ ∀ y ∈ l, y ≤ l.foldl max a := by
  induction l generalizing a with
  | nil => exact ⟨le_refl a, by simp⟩
  | cons b t ih =>
    rw [List.foldl_cons]
    have h := ih (max a b)
    refine ⟨le_trans (le_max_left a b) h.1, ?_⟩
    intro y hy
    rcases List.mem_cons.mp hy with hyb | hyt
    · rw [hyb]
      exact le_trans (le_max_right a b) h.1
    · exact h.2 y hyt

/-- Every member of a track is at most its npMax. -/
theorem le_npMax_of_mem {tr : Track} {x : ℚ} (hx : x ∈ tr) : x ≤ npMax tr := by
  cases tr with
  | nil => cases hx
  | cons a t =>
    rcases List.mem_cons.mp hx with h | h
    · exact h ▸ (le_foldl_max t a).1
    · exact (le_foldl_max t a).2 x h

/-- Folding max over an all-zero list from zero stays at zero. -/
theorem foldl_max_zero (t : List ℚ) (h : ∀ x ∈ t, x = 0) :
    t.foldl max 0 = 0 := by
  induction t with
  | nil => rfl
  | cons b s ih =>
    rw [List.foldl_cons, h b (List.mem_cons_self b s), max_self]
    exact ih (fun x hx => h x (List.mem_cons_of_mem b hx))

/-- npMax of a track with only zero entries is zero. -/
theorem npMax_eq_zero {tr : Track} (h : ∀ x ∈ tr, x = 0) : npMax tr = 0 := by
  cases tr with
  | nil => rfl
  | cons a t =>
    have ha : a = 0 := h a (List.mem_cons_self a t)
    show t.foldl max a = 0
    rw [ha]
    exact foldl_max_zero t (fun x hx => h x (List.mem_cons_of_mem a hx))

/-- Reading a list at any index with a default yields a value with any
property that both the default and all members satisfy. -/
theorem getD_prop {α : Type} {P : α → Prop} {d : α} {l : List α} (h0 : P d)
    (hl : ∀ x ∈ l, P x) (i : ℕ) : P (l.getD i d) := by
  induction l generalizing i with
  | nil => simpa [List.getD] using h0
  | cons a t ih =>
    cases i with
    | zero => exact hl a (List.mem_cons_self a t)
    | succ j =>
      exact ih (fun x hx => hl x (List.mem_cons_of_mem a hx)) j

/-- The median of three values in the unit interval lies in it. -/
theorem median3_bound {a b c : ℚ} (ha : 0 ≤ a ∧ a ≤ 1) (hb : 0 ≤ b ∧ b ≤ 1)
    (hc : 0 ≤ c ∧ c ≤ 1) : 0 ≤ median3 a b c ∧ median3 a b c ≤ 1 := by
  unfold median3
  constructor
  · exact le_trans (le_min ha.1 hb.1) (le_max_left _ _)
  · exact max_le (le_trans (min_le_left a b) ha.2)
      (le_trans (min_le_right _ c) hc.2)

/-- The median filter keeps every entry inside the unit interval when the
input track lies inside it (the zero padding is also inside it). -/
theorem medfilt3_bound {tr : Track} (h : ∀ x ∈ tr, 0 ≤ x ∧ x ≤ 1) :
    ∀ y ∈ medfilt3 tr, 0 ≤ y ∧ y ≤ 1 := by
  intro y hy
  unfold medfilt3 at hy
  rcases List.mem_map.mp hy with ⟨i, _, hval⟩
  subst hval
  have hg : ∀ j : ℕ, 0 ≤ tr.getD j 0 ∧ tr.getD j 0 ≤ 1 :=
    getD_prop (by norm_num) h
  apply median3_bound
  · by_cases hi : i = 0
    · simp [hi]
    · simpa [hi] using hg (i - 1)
  · exact hg i
  · exact hg (i + 1)

/-- The median filter of an all-zero track is all zero. -/
theorem medfilt3_zero {tr : Track} (h : ∀ x ∈ tr, x = 0) :
    ∀ y ∈ medfilt3 tr, y = 0 := by
  intro y hy
  unfold medfilt3 at hy
  rcases List.mem_map.mp hy with ⟨i, _, hval⟩
  subst hval
  have hg : ∀ j : ℕ, tr.getD j 0 = 0 :=
    getD_prop (P := fun x => x = 0) rfl h
  have hz : ∀ a b c : ℚ, a = 0 → b = 0 → c = 0 → median3 a b c = 0 := by
    intro a b c ha hb hc
    simp [median3, ha, hb, hc]
  apply hz
  · by_cases hi : i = 0
    · rw [if_pos hi]
    · rw [if_neg hi]
      exact hg (i - 1)
  · exact hg i
  · exact hg (i + 1)

/-- Guarded peak normalization maps a nonnegative track into the unit
interval. -/
theorem normalizeTrack_bound {tr : Track} (h : ∀ x ∈ tr, 0 ≤ x) :
    ∀ y ∈ normalizeTrack tr, 0 ≤ y ∧ y ≤ 1 := by
  intro y hy
  unfold normalizeTrack at hy
  rcases List.mem_map.mp hy with ⟨x, hx, hval⟩
  subst hval
  have hx0 : 0 ≤ x := h x hx
  have hxm : x ≤ npMax tr := le_npMax_of_mem hx
  by_cases hm : npMax tr = 0
  · have : x = 0 := le_antisymm (hm ▸ hxm) hx0
    simp [hm, this]
  · have hmpos : 0 < npMax tr := lt_of_le_of_ne (le_trans hx0 hxm) (Ne.symm hm)
    simp only [if_neg hm]
    exact ⟨div_nonneg hx0 (le_of_lt hmpos), (div_le_one hmpos).mpr hxm⟩

/-- Guarded peak normalization of an all-zero track is all zero. -/
theorem normalizeTrack_zero {tr : Track} (h : ∀ x ∈ tr, x = 0) :
    ∀ y ∈ normalizeTrack tr, y = 0 := by
  intro y hy
  unfold normalizeTrack at hy
  rcases List.mem_map.mp hy with ⟨x, hx, hval⟩
  subst hval
  simp [npMax_eq_zero h, h x hx]

/-- The guarded loudness normalization maps a nonnegative track into the
unit interval. -/
theorem normalizeRms_bound {tr : Track} (h : ∀ x ∈ tr, 0 ≤ x) :
    ∀ y ∈ normalizeRms tr, 0 ≤ y ∧ y ≤ 1 := by
  intro y hy
  unfold normalizeRms at hy
  by_cases hm : 0 < npMax tr
  · rw [if_pos hm] at hy
    rcases List.mem_map.mp hy with ⟨x, hx, hval⟩
    subst hval
    exact ⟨div_nonneg (h x hx) (le_of_lt hm), (div_le_one hm).mpr (le_npMax_of_mem hx)⟩
  · rw [if_neg hm] at hy
    have hx0 : 0 ≤ y := h y hy
    have : y ≤ npMax tr := le_npMax_of_mem hy
    push_neg at hm
    exact ⟨hx0, le_trans this (le_trans hm (by norm_num))⟩

/-- The guarded loudness normalization of an all-zero track is all zero. -/
theorem normalizeRms_zero {tr : Track} (h : ∀ x ∈ tr, x = 0) :
    ∀ y ∈ normalizeRms tr, y = 0 := by
  intro y hy
  unfold normalizeRms at hy
  rw [npMax_eq_zero h] at hy
  simp only [lt_self_iff_false, if_false] at hy
  exact h y hy

/-- Any member of a zipWith result comes from members of the two lists. -/
theorem mem_zipWith {f : ℚ → Track → Track} {ws : List ℚ} {bs : Matrix2}
    {tr : Track} (h : tr ∈ List.zipWith f ws bs) :
    ∃ w ∈ ws, ∃ b ∈ bs, tr = f w b := by
  induction ws generalizing bs with
  | nil => cases h
  | cons w wt ih =>
    cases bs with
    | nil => cases h
    | cons b bt =>
      rcases List.mem_cons.mp h with h1 | h1
      · exact ⟨w, List.mem_cons_self _ _, b, List.mem_cons_self _ _, h1⟩
      · rcases ih h1 with ⟨w2, hw2, b2, hb2, he⟩
        exact ⟨w2, List.mem_cons_of_mem _ hw2, b2, List.mem_cons_of_mem _ hb2, he⟩

/-- Every entry of every raw band-energy track is nonnegative when the
spectrogram entries are nonnegative. -/
theorem bandEnergy_nonneg {S : Matrix2} (hS : ∀ r ∈ S, ∀ x ∈ r, 0 ≤ x)
    (idx : List ℕ) : ∀ y ∈ bandEnergy S idx, 0 ≤ y := by
  intro y hy
  unfold bandEnergy at hy
  by_cases he : idx.isEmpty
  · rw [if_pos he] at hy
    rw [List.eq_of_mem_replicate hy]
  · rw [if_neg he] at hy
    rcases List.mem_map.mp hy with ⟨t, _, hval⟩
    subst hval
    apply div_nonneg
    · apply List.sum_nonneg
      intro q hq
      rcases List.mem_map.mp hq with ⟨k, _, hval2⟩
      subst hval2
      unfold entry
      have hrow : ∀ x ∈ S.getD k [], 0 ≤ x :=
        getD_prop (P := fun r => ∀ x ∈ r, (0 : ℚ) ≤ x) (by simp) hS k
      exact getD_prop le_rfl hrow t
    · exact Nat.cast_nonneg _

/-- Every weight in the EQ bias vector is nonnegative. -/
theorem band_weights_nonneg : ∀ w ∈ band_weights, 0 ≤ w := by
  intro w hw
  fin_cases hw <;> norm_num

/-- Weighting preserves nonnegativity of the band tracks. -/
theorem weightedBands_nonneg {bands : Matrix2}
    (h : ∀ b ∈ bands, ∀ x ∈ b, 0 ≤ x) :
    ∀ tr ∈ weightedBands bands, ∀ x ∈ tr, 0 ≤ x := by
  intro tr htr x hx
  rcases mem_zipWith htr with ⟨w, hw, b, hb, he⟩
  subst he
  rcases List.mem_map.mp hx with ⟨v, hv, hval⟩
  subst hval
  exact mul_nonneg (band_weights_nonneg w (List.mem_of_mem_take hw)) (h b hb v hv)

/-- Raw band tracks are nonnegative for a nonnegative spectrogram. -/
theorem rawBands_nonneg {S : Matrix2} (hS : ∀ r ∈ S, ∀ x ∈ r, 0 ≤ x)
    (sr : ℕ) : ∀ b ∈ rawBands sr S, ∀ x ∈ b, 0 ≤ x := by
  intro b hb
  rcases List.mem_map.mp hb with ⟨rg, _, hval⟩
  subst hval
  exact bandEnergy_nonneg hS _

/-- After the full band stage every value lies in the unit interval. -/
theorem bandStage_bound {S : Matrix2} (hS : ∀ r ∈ S, ∀ x ∈ r, 0 ≤ x)
    (sr : ℕ) : ∀ tr ∈ bandStage sr S, ∀ x ∈ tr, 0 ≤ x ∧ x ≤ 1 := by
  intro tr htr
  unfold bandStage smoothBands at htr
  rcases List.mem_map.mp htr with ⟨tr2, htr2, hval⟩
  subst hval
  unfold normBands at htr2
  rcases List.mem_map.mp htr2 with ⟨tr3, htr3, hval2⟩
  subst hval2
  exact medfilt3_bound (normalizeTrack_bound
    (weightedBands_nonneg (rawBands_nonneg hS sr) tr3 htr3))

/-- After the loudness stage every value lies in the unit interval. -/
theorem rmsStage_bound {rms : Track} (h : ∀ x ∈ rms, 0 ≤ x) :
    ∀ y ∈ rmsStage rms, 0 ≤ y ∧ y ≤ 1 :=
  medfilt3_bound (normalizeRms_bound h)

/-- Every pulse value is exactly zero or one. -/
theorem pulseTrack_mem (L : ℕ) (onsets : List ℕ) :
    ∀ y ∈ pulseTrack L onsets, y = 0 ∨ y = 1 := by
  intro y hy
  rcases List.mem_map.mp hy with ⟨i, _, hval⟩
  subst hval
  by_cases hi : i ∈ onsets
  · right
    rw [if_pos hi]
  · left
    rw [if_neg hi]

/-- Length facts for the track operations. -/
theorem medfilt3_length (tr : Track) : (medfilt3 tr).length = tr.length := by
  simp [medfilt3]

/-- normalizeRms preserves the track length. -/
theorem normalizeRms_length (tr : Track) :
    (normalizeRms tr).length = tr.length := by
  unfold normalizeRms
  by_cases h : 0 < npMax tr <;> simp [h]

/-- The loudness stage preserves the track length. -/
theorem rmsStage_length (tr : Track) : (rmsStage tr).length = tr.length := by
  rw [rmsStage, medfilt3_length, normalizeRms_length]

/-- The stacked data has one row per loudness frame. -/
theorem all_data_length (loud : Track) (bands : Matrix2) (pulse : Track) :
    (all_data loud bands pulse).length = loud.length := by
  simp [all_data]

/-- The band stage always yields exactly seven tracks. -/
theorem bandStage_length (sr : ℕ) (S : Matrix2) :
    (bandStage sr S).length = 7 := by
  simp [bandStage, smoothBands, normBands, weightedBands, rawBands,
    band_ranges, band_weights]

/-- Core grid arithmetic: with a positive frame rate no larger than the
sample rate, the target frame count never exceeds floor(n / hop), so the
centered transform always yields strictly more frames than needed. -/
theorem total_frames_le (n sr fps : ℕ) (hfps : 0 < fps) (hle : fps ≤ sr) :
    total_frames n sr fps ≤ n / hop_length sr fps := by
  unfold total_frames hop_length
  have hhop : 0 < sr / fps := (Nat.one_le_div_iff hfps).mpr hle
  have h1 : sr / fps * fps ≤ sr := Nat.div_mul_le_self sr fps
  have h2 : n * fps / sr ≤ n * fps / (sr / fps * fps) :=
    Nat.div_le_div_left h1 (Nat.mul_pos hhop hfps)
  rwa [Nat.mul_div_mul_right n (sr / fps) hfps] at h2

/-- The target frame count is strictly below the transform frame count. -/
theorem total_frames_lt_numFrames (n sr fps : ℕ) (hfps : 0 < fps)
    (hle : fps ≤ sr) :
    total_frames n sr fps < numFrames n (hop_length sr fps) := by
  have := total_frames_le n sr fps hfps hle
  unfold numFrames
  omega

/-- The length of the raw band list is the number of band ranges. -/
theorem rawBands_length (sr : ℕ) (S : Matrix2) :
    (rawBands sr S).length = 7 := by
  simp [rawBands, band_ranges]

/-- Weighting preserves the number of band tracks (seven weights are
available for the seven bands, out of the eight-entry weight vector). -/
theorem weightedBands_length_of_seven {bands : Matrix2}
    (h : bands.length = 7) : (weightedBands bands).length = 7 := by
  simp [weightedBands, h, band_weights]

/-- getD through a map is the map of getD when the index is in range; the
defaults on both sides are then irrelevant. -/
theorem getD_map_lt {α β : Type} (f : α → β) (l : List α) (j : ℕ)
    (dA : α) (dB : β) (hj : j < l.length) :
    (l.map f).getD j dB = f (l.getD j dA) := by
  induction l generalizing j with
  | nil => cases hj
  | cons a t ih =>
    cases j with
    | zero => rfl
    | succ k => exact ih k (Nat.lt_of_succ_lt_succ hj)

/-- getD through a zipWith combines the two getD values when the index is
in range of both lists. -/
theorem getD_zipWith_lt (f : ℚ → Track → Track) (ws : List ℚ)
    (bs : Matrix2) (j : ℕ) (dW : ℚ) (dB dR : Track)
    (hw : j < ws.length) (hb : j < bs.length) :
    (List.zipWith f ws bs).getD j dR = f (ws.getD j dW) (bs.getD j dB) := by
  induction ws generalizing bs j with
  | nil => cases hw
  | cons w wt ih =>
    cases bs with
    | nil => cases hb
    | cons b bt =>
      cases j with
      | zero => rfl
      | succ k =>
        exact ih bt k (Nat.lt_of_succ_lt_succ hw) (Nat.lt_of_succ_lt_succ hb)

/-- A band whose bin selection is empty yields an all-zero smoothed and
normalized track at its index in the band stage. -/
theorem bandStage_track_zero {sr : ℕ} {S : Matrix2} {j lo hi : ℕ}
    (hj : j < 7) (hrange : band_ranges.getD j (0, 0) = (lo, hi))
    (hempty : bandBins sr lo hi = []) :
    ∀ x ∈ (bandStage sr S).getD j [], x = 0 := by
  have h7 : (rawBands sr S).length = 7 := rawBands_length sr S
  have hwlen : (weightedBands (rawBands sr S)).length = 7 :=
    weightedBands_length_of_seven h7
  have hn : j < (normBands (weightedBands (rawBands sr S))).length := by
    simp only [normBands, List.length_map, hwlen]
    exact hj
  have htake : j < (band_weights.take (rawBands sr S).length).length := by
    rw [List.length_take, h7]
    simp only [band_weights, List.length_cons]
    omega
  -- raw band track at index j
  have hjr : j < band_ranges.length := by
    rw [show band_ranges.length = 7 from rfl]
    exact hj
  have hrawD : (rawBands sr S).getD j []
      = bandEnergy S (bandBins sr lo hi) := by
    unfold rawBands
    rw [getD_map_lt _ band_ranges j (0, 0) [] hjr, hrange]
  have hraw_zero : ∀ x ∈ (rawBands sr S).getD j [], x = 0 := by
    intro x hx
    rw [hrawD] at hx
    simp only [bandEnergy, hempty, List.isEmpty_nil, if_pos] at hx
    exact List.eq_of_mem_replicate hx
  -- weighted track at index j
  have hweight_zero : ∀ x ∈ (weightedBands (rawBands sr S)).getD j [],
      x = 0 := by
    intro x hx
    unfold weightedBands at hx
    rw [getD_zipWith_lt _ _ _ j 0 [] [] htake (h7 ▸ hj)] at hx
    rcases List.mem_map.mp hx with ⟨v, hv, hval⟩
    rw [← hval, hraw_zero v hv, mul_zero]
  -- it stays zero through normalization and smoothing
  intro x hx
  unfold bandStage smoothBands at hx
  rw [getD_map_lt medfilt3 _ j [] [] hn] at hx
  revert x hx
  apply medfilt3_zero
  unfold normBands
  rw [getD_map_lt normalizeTrack _ j [] [] (hwlen ▸ hj)]
  exact normalizeTrack_zero hweight_zero

/-- The full band stage of an all-zero spectrogram is all zero. -/
theorem bandStage_zero {S : Matrix2} (hS : ∀ r ∈ S, ∀ x ∈ r, x = 0)
    (sr : ℕ) : ∀ tr ∈ bandStage sr S, ∀ x ∈ tr, x = 0 := by
  have hraw : ∀ b ∈ rawBands sr S, ∀ x ∈ b, x = 0 := by
    intro b hb x hx
    rcases List.mem_map.mp hb with ⟨rg, _, hval⟩
    subst hval
    unfold bandEnergy at hx
    by_cases he : (bandBins sr rg.1 rg.2).isEmpty
    · rw [if_pos he] at hx
      exact List.eq_of_mem_replicate hx
    · rw [if_neg he] at hx
      rcases List.mem_map.mp hx with ⟨t, _, hval2⟩
      subst hval2
      have hz : ∀ q ∈ (bandBins sr rg.1 rg.2).map (fun k => entry S k t),
          q = 0 := by
        intro q hq
        rcases List.mem_map.mp hq with ⟨k, _, hval3⟩
        subst hval3
        unfold entry
        have hrow : ∀ x ∈ S.getD k [], x = 0 :=
          getD_prop (P := fun r => ∀ x ∈ r, x = (0 : ℚ)) (by simp) hS k
        exact getD_prop (P := fun x => x = 0) rfl hrow t
      rw [List.sum_eq_zero hz, zero_div]
  have hweight : ∀ tr ∈ weightedBands (rawBands sr S), ∀ x ∈ tr, x = 0 := by
    intro tr htr x hx
    rcases mem_zipWith htr with ⟨w, _, b, hb, he⟩
    subst he
    rcases List.mem_map.mp hx with ⟨v, hv, hval⟩
    rw [← hval, hraw b hb v hv, mul_zero]
  intro tr htr
  unfold bandStage smoothBands at htr
  rcases List.mem_map.mp htr with ⟨tr2, htr2, hval⟩
  subst hval
  unfold normBands at htr2
  rcases List.mem_map.mp htr2 with ⟨tr3, htr3, hval2⟩
  subst hval2
  exact medfilt3_zero (normalizeTrack_zero (hweight tr3 htr3))

/-- The loudness stage of an all-zero RMS track is all zero. -/
theorem rmsStage_zero {rms : Track} (h : ∀ x ∈ rms, x = 0) :
    ∀ y ∈ rmsStage rms, y = 0 :=
  medfilt3_zero (normalizeRms_zero h)

/-- The target frame count equals the floor of duration times frame rate. -/
theorem total_frames_eq_floor (n sr fps : ℕ) :
    total_frames n sr fps = Nat.floor ((n : ℚ) / (sr : ℚ) * (fps : ℚ)) := by
  unfold total_frames
  rw [div_mul_eq_mul_div,
    show ((n : ℚ) * (fps : ℚ)) = ((n * fps : ℕ) : ℚ) by push_cast; ring]
  rw [Nat.floor_div_nat (α := ℚ) ((n * fps : ℕ) : ℚ) sr, Nat.floor_natCast]

/-! ### Claim theorems -/

/-- C1, counterexample: the code computes hop_length with truncating
division, not rounding.  At sr = 44100 and fps = 24 the code yields 1837
while round(sr / fps) is 1838, and at sr = 10, fps = 24 the computed hop
length is 0, refuting hop_length >= 1. -/
theorem C1_counterexample :
    hop_length 44100 24 = 1837 ∧ round ((44100 : ℚ) / 24) = 1838 ∧
      hop_length 10 24 = 0 := by
  refine ⟨by decide, ?_, by decide⟩
  rw [round_eq]
  norm_num

/-- C1, amended: for every sample rate and positive frame rate, the
analysis grid satisfies hop_length = floor(sr / fps) (truncating integer
division, not rounding), and hop_length >= 1 holds exactly when
fps <= sr. -/
theorem C1_grid_floor (sr fps : ℕ) (hfps : 0 < fps) :
    hop_length sr fps = Nat.floor ((sr : ℚ) / (fps : ℚ)) ∧
      (fps ≤ sr → 1 ≤ hop_length sr fps) := by
  constructor
  · rw [Nat.floor_div_nat]
    rfl
  · intro h
    exact (Nat.one_le_div_iff hfps).mpr h

/-- C1, witness: the amended grid law instantiated at sr = 48000 and
fps = 24. -/
theorem C1_witness :
    0 < 24 ∧ (hop_length 48000 24 = Nat.floor ((48000 : ℚ) / (24 : ℚ)) ∧
      (24 ≤ 48000 → 1 ≤ hop_length 48000 24)) :=
  ⟨by decide, C1_grid_floor 48000 24 (by decide)⟩

/-- C2, counterexample: a decodable one-second input (10 samples at sample
rate 10) at the positive frame rate 24 makes the computed hop length zero,
so the transform raises and the run returns None: no table with
floor(D * F) = 24 rows is written. -/
theorem C2_counterexample :
    audio_to_csv (some ⟨List.replicate 10 0, 10⟩) ⟨[], [], []⟩
        (fun _ => []) 24 = none ∧
      total_frames 10 10 24 = 24 := by
  exact ⟨rfl, by decide⟩

/-- C2, amended: for every decodable input and positive frame rate fps
with fps <= sr (so the run succeeds), the written table has exactly
floor(D * fps) data rows, D the duration in seconds; excess transform
frames are dropped.  The transform track length is the centered frame
count 1 + floor(n / hop). -/
theorem C2_row_count (a : LoadedAudio) (lib : LibOut)
    (pick : Track → List ℕ) (fps : ℕ) (hfps : 0 < fps) (hle : fps ≤ a.sr)
    (hlen : lib.rms.length = numFrames a.samples.length (hop_length a.sr fps)) :
    (runPipeline a lib pick fps).rows.length
        = total_frames a.samples.length a.sr fps ∧
      total_frames a.samples.length a.sr fps
        = Nat.floor ((a.samples.length : ℚ) / (a.sr : ℚ) * (fps : ℚ)) := by
  refine ⟨?_, total_frames_eq_floor _ _ _⟩
  simp only [runPipeline, writeStep]
  rw [List.length_take, all_data_length, rmsStage_length, hlen]
  exact Nat.min_eq_left
    (le_of_lt (total_frames_lt_numFrames a.samples.length a.sr fps hfps hle))

/-- C2, witness: the row-count law instantiated on an 8-sample buffer at
sample rate 4 and frame rate 2, where the transform yields 5 frames and
exactly 4 rows are written. -/
theorem C2_witness :
    (0 < 2 ∧ 2 ≤ 4 ∧
        (List.replicate 5 (0 : ℚ)).length = numFrames 8 (hop_length 4 2)) ∧
      ((runPipeline ⟨List.replicate 8 0, 4⟩
          ⟨[[0, 0, 0, 0, 0]], List.replicate 5 0, List.replicate 5 0⟩
          (fun _ => []) 2).rows.length = total_frames 8 4 2 ∧
        total_frames 8 4 2 = Nat.floor ((8 : ℚ) / (4 : ℚ) * (2 : ℚ))) :=
  ⟨⟨by decide, by decide, by decide⟩,
    C2_row_count ⟨List.replicate 8 0, 4⟩
      ⟨[[0, 0, 0, 0, 0]], List.replicate 5 0, List.replicate 5 0⟩
      (fun _ => []) 2 (by decide) (by decide) (by decide)⟩

/-- C3: in every written row of a successful run, the loudness value and
each of the seven band values lie in the closed interval from 0 to 1, and
the pulse value is exactly 0 or exactly 1.  The hypotheses state the
library facts that spectrogram magnitudes and RMS values are
nonnegative. -/
theorem C3_value_bounds (a : LoadedAudio) (lib : LibOut)
    (pick : Track → List ℕ) (fps : ℕ)
    (hS : ∀ r ∈ lib.S, ∀ x ∈ r, 0 ≤ x) (hr : ∀ x ∈ lib.rms, 0 ≤ x) :
    ∀ row ∈ (runPipeline a lib pick fps).rows,
      ∃ l bs p, row = l :: (bs ++ [p]) ∧ (0 ≤ l ∧ l ≤ 1) ∧
        bs.length = 7 ∧ (∀ x ∈ bs, 0 ≤ x ∧ x ≤ 1) ∧ (p = 0 ∨ p = 1) := by
  intro row hrow
  simp only [runPipeline, writeStep] at hrow
  have hmem := List.mem_of_mem_take hrow
  unfold all_data at hmem
  rcases List.mem_map.mp hmem with ⟨t, _, hval⟩
  subst hval
  refine ⟨_, _, _, rfl, ?_, ?_, ?_, ?_⟩
  · exact getD_prop (P := fun x => 0 ≤ x ∧ x ≤ 1) ⟨le_refl 0, by norm_num⟩
      (rmsStage_bound hr) t
  · rw [List.length_map, bandStage_length]
  · intro x hx
    rcases List.mem_map.mp hx with ⟨b, hb, hxv⟩
    subst hxv
    exact getD_prop (P := fun x => 0 ≤ x ∧ x ≤ 1) ⟨le_refl 0, by norm_num⟩
      (bandStage_bound hS a.sr b hb) t
  · exact getD_prop (P := fun x => x = 0 ∨ x = 1) (Or.inl rfl)
      (pulseTrack_mem _ _) t

/-- C3, witness: the bounds instantiated on a concrete two-frame run with
nonzero spectrogram and RMS values. -/
theorem C3_witness :
    ((∀ r ∈ ([[1, 2], [3, 4]] : Matrix2), ∀ x ∈ r, 0 ≤ x) ∧
        (∀ x ∈ ([1, 2] : Track), 0 ≤ x)) ∧
      (∀ row ∈ (runPipeline ⟨[1, 2], 2⟩ ⟨[[1, 2], [3, 4]], [1, 2], [0, 1]⟩
          (fun _ => [1]) 1).rows,
        ∃ l bs p, row = l :: (bs ++ [p]) ∧ (0 ≤ l ∧ l ≤ 1) ∧
          bs.length = 7 ∧ (∀ x ∈ bs, 0 ≤ x ∧ x ≤ 1) ∧ (p = 0 ∨ p = 1)) :=
  ⟨⟨by decide, by decide⟩,
    C3_value_bounds ⟨[1, 2], 2⟩ ⟨[[1, 2], [3, 4]], [1, 2], [0, 1]⟩
      (fun _ => [1]) 1 (by decide) (by decide)⟩

/-- C4: a band whose half-open frequency interval selects no FFT bin
center contributes an all-zero column to every written row (column j + 1
for band index j), never an undefined or NaN value, thanks to the guard
at audio_analysis.py lines 110 to 115. -/
theorem C4_empty_band_zero (a : LoadedAudio) (lib : LibOut)
    (pick : Track → List ℕ) (fps : ℕ) (j lo hi : ℕ) (hj : j < 7)
    (hrange : band_ranges.getD j (0, 0) = (lo, hi))
    (hempty : bandBins a.sr lo hi = []) :
    ∀ row ∈ (runPipeline a lib pick fps).rows, row.getD (j + 1) 0 = 0 := by
  intro row hrow
  simp only [runPipeline, writeStep] at hrow
  have hmem := List.mem_of_mem_take hrow
  unfold all_data at hmem
  rcases List.mem_map.mp hmem with ⟨t, _, hval⟩
  subst hval
  rw [List.getD_cons_succ]
  have hjlen : j < ((bandStage a.sr lib.S).map (fun b => b.getD t 0)).length := by
    rw [List.length_map, bandStage_length]
    exact hj
  rw [List.getD_append _ _ _ _ hjlen]
  rw [getD_map_lt (fun b => b.getD t 0) (bandStage a.sr lib.S) j [] 0
    (by rw [bandStage_length]; exact hj)]
  exact getD_prop (P := fun x => x = 0) rfl
    (bandStage_track_zero hj hrange hempty) t

set_option maxRecDepth 8000 in
/-- C4, witness: at sample rate 8000 the brilliance band from 6000 to
12000 Hz selects no bin (all bin centers are at most 4000 Hz), and every
row of a concrete run has a zero in column 7. -/
theorem C4_witness :
    (6 < 7 ∧ band_ranges.getD 6 (0, 0) = (6000, 12000) ∧
        bandBins 8000 6000 12000 = []) ∧
      (∀ row ∈ (runPipeline ⟨List.replicate 4 0, 8000⟩
          ⟨[[1, 2], [3, 4]], [1, 2], [0, 1]⟩ (fun _ => [1]) 24).rows,
        row.getD 7 0 = 0) :=
  ⟨⟨by decide, by decide, by rw [bandBins_eq_natFilter]; decide⟩,
    C4_empty_band_zero ⟨List.replicate 4 0, 8000⟩ ⟨[[1, 2], [3, 4]], [1, 2], [0, 1]⟩
      (fun _ => [1]) 24 6 6000 12000 (by decide) (by decide)
      (by rw [bandBins_eq_natFilter]; decide)⟩

/-- C5: when the decoded signal is all zeros, the external transforms
yield an all-zero spectrogram, RMS track and onset envelope (the stated
hypotheses); then every normalization guard takes its divide-by-one
branch, the library returns no onsets on the all-zero envelope, and every
value of every written row is exactly zero, pulse included; no NaN or Inf
can arise since no division by zero is performed. -/
theorem C5_silence_all_zero (a : LoadedAudio) (lib : LibOut)
    (pick : Track → List ℕ) (fps : ℕ)
    (hS : ∀ r ∈ lib.S, ∀ x ∈ r, x = 0) (hr : ∀ x ∈ lib.rms, x = 0)
    (he : ∀ x ∈ lib.env, x = 0) :
    ∀ row ∈ (runPipeline a lib pick fps).rows, ∀ x ∈ row, x = 0 := by
  intro row hrow
  simp only [runPipeline, writeStep] at hrow
  have hmem := List.mem_of_mem_take hrow
  unfold all_data at hmem
  rcases List.mem_map.mp hmem with ⟨t, _, hval⟩
  subst hval
  intro x hx
  rcases List.mem_cons.mp hx with hxl | hxr
  · rw [hxl]
    exact getD_prop (P := fun v => v = 0) rfl (rmsStage_zero hr) t
  · rcases List.mem_append.mp hxr with hxb | hxp
    · rcases List.mem_map.mp hxb with ⟨b, hb, hxv⟩
      subst hxv
      exact getD_prop (P := fun v => v = 0) rfl
        (bandStage_zero hS a.sr b hb) t
    · have hxeq : x = (pulseTrack lib.rms.length
          (onsetDetect pick lib.env)).getD t 0 := List.mem_singleton.mp hxp
      have hany : lib.env.any (fun v => decide (v ≠ 0)) = false := by
        rw [List.any_eq_false]
        intro v hv
        simp [he v hv]
      have hdet : onsetDetect pick lib.env = [] := by
        unfold onsetDetect
        rw [hany]
        simp
      have hzero : ∀ y ∈ pulseTrack lib.rms.length
          (onsetDetect pick lib.env), y = 0 := by
        intro y hy
        rcases List.mem_map.mp hy with ⟨i, _, hyv⟩
        subst hyv
        rw [hdet]
        simp
      rw [hxeq]
      exact getD_prop (P := fun v => v = 0) rfl hzero t

/-- C5, witness: a concrete silent run (all-zero spectrogram, RMS and
envelope) whose every written value is zero. -/
theorem C5_witness :
    ((∀ r ∈ ([[0, 0], [0, 0]] : Matrix2), ∀ x ∈ r, x = 0) ∧
        (∀ x ∈ ([0, 0] : Track), x = 0) ∧ (∀ x ∈ ([0, 0] : Track), x = 0)) ∧
      (∀ row ∈ (runPipeline ⟨List.replicate 4 0, 4⟩
          ⟨[[0, 0], [0, 0]], [0, 0], [0, 0]⟩ (fun _ => [0]) 2).rows,
        ∀ x ∈ row, x = 0) :=
  ⟨⟨by decide, by decide, by decide⟩,
    C5_silence_all_zero ⟨List.replicate 4 0, 4⟩
      ⟨[[0, 0], [0, 0]], [0, 0], [0, 0]⟩ (fun _ => [0]) 2
      (by decide) (by decide) (by decide)⟩

/-- C6: before normalization, the seven raw band tracks are multiplied
elementwise by exactly the weights 1.2, 1.1, 1.0, 0.9, 0.8, 0.7, 0.5 in
band order; the eighth stored weight 0.3 is never consulted, since the
slice band_weights[:7] drops it, and the stage order of the engine is
weighting, then normalization, then smoothing. -/
theorem C6_weights (sr : ℕ) (S : Matrix2) :
    (rawBands sr S).length = 7 ∧
      weightedBands (rawBands sr S)
        = List.zipWith (fun w tr => tr.map (fun x => w * x))
          [12/10, 11/10, 1, 9/10, 8/10, 7/10, 5/10] (rawBands sr S) ∧
      bandStage sr S
        = smoothBands (normBands (weightedBands (rawBands sr S))) := by
  refine ⟨rawBands_length sr S, ?_, rfl⟩
  unfold weightedBands
  rw [rawBands_length sr S]
  exact rfl

/-- C7, counterexample: the serializer slice all_data[:total_frames]
writes whatever rows exist and reports nothing.  With three transform
rows and a target of five frames it silently writes the three rows; no
ConsistencyError value exists anywhere in the code to report. -/
theorem C7_counterexample :
    writeStep [[(1 : ℚ)], [2], [3]] 5 = [[(1 : ℚ)], [2], [3]] ∧
      (writeStep [[(1 : ℚ)], [2], [3]] 5).length = 3 ∧ 3 < 5 :=
  ⟨rfl, rfl, by decide⟩

/-- C7, amended: the code never reports a ConsistencyError (none exists);
the serializer writes min(total_frames, transform frames) rows without
any report.  The premise of the claim is unreachable on successful runs:
whenever the hop length is at least one (fps at most sr), the centered
transform yields strictly more frames than total_frames, so every
successful run writes exactly total_frames rows. -/
theorem C7_no_short_transform (n sr fps : ℕ) (hfps : 0 < fps)
    (hle : fps ≤ sr) :
    total_frames n sr fps < numFrames n (hop_length sr fps) ∧
      ∀ rows : Matrix2, rows.length = numFrames n (hop_length sr fps) →
        (writeStep rows (total_frames n sr fps)).length
          = total_frames n sr fps := by
  refine ⟨total_frames_lt_numFrames n sr fps hfps hle, ?_⟩
  intro rows hlen
  rw [writeStep, List.length_take, hlen]
  exact Nat.min_eq_left
    (le_of_lt (total_frames_lt_numFrames n sr fps hfps hle))

/-- C7, witness: the amended statement instantiated at an 8-sample signal,
sample rate 4 and frame rate 2: 4 target frames against 5 transform
frames, with a 5-row matrix written down to exactly 4 rows. -/
theorem C7_witness :
    (0 < 2 ∧ 2 ≤ 4) ∧
      (total_frames 8 4 2 < numFrames 8 (hop_length 4 2) ∧
        ∀ rows : Matrix2, rows.length = numFrames 8 (hop_length 4 2) →
          (writeStep rows (total_frames 8 4 2)).length
            = total_frames 8 4 2) :=
  ⟨⟨by decide, by decide⟩, C7_no_short_transform 8 4 2 (by decide) (by decide)⟩

/-- C8, counterexample: at fps = 0 on a decodable input the pipeline does
not reject anything before processing; the load step has already
succeeded, the failure is the ZeroDivisionError at the hop computation,
and audio_to_csv swallows it into a None return.  No ConfigError exists.
At fps = -5 the failure is the invalid-hop error at the transform,
likewise after the load. -/
theorem C8_counterexample :
    analyze ⟨List.replicate 4 0, 22050⟩ ⟨[], [], []⟩ (fun _ => []) 0
        = Except.error AnalysisErr.zeroDivision ∧
      audio_to_csv (some ⟨List.replicate 4 0, 22050⟩) ⟨[], [], []⟩
        (fun _ => []) 0 = none ∧
      analyze ⟨List.replicate 4 0, 22050⟩ ⟨[], [], []⟩ (fun _ => []) (-5)
        = Except.error AnalysisErr.invalidHop ∧
      audio_to_csv (some ⟨List.replicate 4 0, 22050⟩) ⟨[], [], []⟩
        (fun _ => []) (-5) = none :=
  ⟨rfl, rfl, rfl, rfl⟩

/-- C8, amended: for every frame rate at most zero the run fails only
after the load step (the failure sites are the grid computation for
fps = 0 and the transform for negative fps, both downstream of the load),
the failure is a caught exception rather than a typed ConfigError, and
audio_to_csv returns None. -/
theorem C8_nonpositive_fps (a : LoadedAudio) (lib : LibOut)
    (pick : Track → List ℕ) (fps : ℤ) (hfps : fps ≤ 0) (hsr : 0 < a.sr) :
    analyze a lib pick fps = Except.error
        (if fps = 0 then AnalysisErr.zeroDivision else AnalysisErr.invalidHop) ∧
      audio_to_csv (some a) lib pick fps = none := by
  by_cases h0 : fps = 0
  · subst h0
    exact ⟨rfl, rfl⟩
  · have hneg : fps < 0 := lt_of_le_of_ne hfps h0
    have htd : Int.tdiv (a.sr : ℤ) fps < 1 := by
      have h2 : 0 ≤ Int.tdiv (a.sr : ℤ) (-fps) :=
        Int.tdiv_nonneg (by positivity) (by omega)
      have h1 : Int.tdiv (a.sr : ℤ) (-(-fps)) = -Int.tdiv (a.sr : ℤ) (-fps) :=
        Int.tdiv_neg _ _
      rw [neg_neg] at h1
      omega
    constructor
    · simp [analyze, h0, htd]
    · simp [audio_to_csv, analyze, h0, htd, Except.toOption]

/-- C8, witness: the amended statement instantiated at fps = -5 on a
concrete loaded buffer. -/
theorem C8_witness :
    ((-5 : ℤ) ≤ 0 ∧ 0 < 22050) ∧
      (analyze ⟨List.replicate 4 0, 22050⟩ ⟨[], [], []⟩ (fun _ => []) (-5)
          = Except.error (if (-5 : ℤ) = 0 then AnalysisErr.zeroDivision
            else AnalysisErr.invalidHop) ∧
        audio_to_csv (some ⟨List.replicate 4 0, 22050⟩) ⟨[], [], []⟩
          (fun _ => []) (-5) = none) :=
  ⟨⟨by decide, by decide⟩,
    C8_nonpositive_fps ⟨List.replicate 4 0, 22050⟩ ⟨[], [], []⟩
      (fun _ => []) (-5) (by decide) (by decide)⟩

/-- C9: the pipeline is deterministic.  The embedded run is a pure
function of the decoded buffer, the library outputs on it, the peak
picker and the frame rate: two runs on equal inputs yield equal output.
The source contains no randomness and no processing-order dependence. -/
theorem C9_deterministic (load1 load2 : Option LoadedAudio)
    (lib1 lib2 : LibOut) (pick1 pick2 : Track → List ℕ) (fps1 fps2 : ℤ)
    (hl : load1 = load2) (hb : lib1 = lib2) (hp : pick1 = pick2)
    (hf : fps1 = fps2) :
    audio_to_csv load1 lib1 pick1 fps1 = audio_to_csv load2 lib2 pick2 fps2 := by
  rw [hl, hb, hp, hf]

/-- C9, witness: two identical concrete runs produce the same output. -/
theorem C9_witness :
    audio_to_csv (some ⟨[1, 2], 2⟩) ⟨[[1]], [1], [1]⟩ (fun _ => []) 1
      = audio_to_csv (some ⟨[1, 2], 2⟩) ⟨[[1]], [1], [1]⟩ (fun _ => []) 1 :=
  C9_deterministic _ _ _ _ _ _ _ _ rfl rfl rfl rfl

/-- C10: the except clause of audio_to_csv deletes the local FFmpeg cache
directory exactly when the lower-cased exception message contains ffmpeg
or audioread, and returns None in every failure case; for any other
message the cache is left unchanged and None is returned. -/
theorem C10_error_cleanup (msg : String) (cache : Bool) :
    errorCleanup msg cache
      = (if mentionsFfmpeg msg then false else cache, none) := by
  unfold errorCleanup
  by_cases h : mentionsFfmpeg msg <;> simp [h]

end BeatDriver
